import Mathlib

/-!
# Verification of `rasa_core.training.story_graph`

A shallow embedding of `src/rasa_core/training/story_graph.py` (class
`StoryGraph`): the DFS-based topological sort with back-edge detection
(`topological_sort`), the step-grouping graph builder (`order_steps`,
`_group_by_start_checkpoint`), the cycle breaker (`with_cycles_removed`) and
the frontier-propagation story enumerator (`build_stories`).

Python dictionaries are embedded as association lists (first matching key wins;
construction keeps Python's "last assignment wins, first insertion position"
behaviour via `dictOf`).  The recursive `dfs` of the source is embedded with a
fuel parameter; the exported `topological_sort` instantiates the fuel with a
bound that is proved sufficient.  Python's `set(graph)` iterates the keys of
the graph in an unspecified order; the embedding makes that schedule an
explicit parameter (`topological_sortFrom`) and the exported
`topological_sort` uses key insertion order, one admissible schedule.

Collaborator code that is not part of the sources (`rasa_core.training.dsl`
and `rasa_core.utils`) is modelled from the spec; such definitions carry a
doc comment starting with `Modelled from the spec:`.
-/

/-- The two colours of the source's DFS (`GRAY, BLACK = 0, 1`); the absent
entry of `visited_nodes` plays the role of the third, "unvisited" colour. -/
inductive Color where
  | GRAY : Color
  | BLACK : Color
deriving DecidableEq, Repr

/-- Association-list embedding of a Python dictionary lookup (`d.get(k)`).
Keys are unique in every dictionary the source builds, so "first match wins"
agrees with the dictionary semantics. -/
def alookup {α β : Type} [DecidableEq α] : List (α × β) → α → Option β
  | [], _ => none
  | (k, v) :: rest, a => if k = a then some v else alookup rest a

/-- A directed graph "represented as a dictionary" (source docstring):
node identity mapped to the list of successor identities. -/
abbrev Graph := List (String × List String)

/-- An edge between two node identities. -/
abbrev Edge := String × String

/-- `graph.get(node, ())` of the source: a node missing from the adjacency
dictionary is treated as having no successors. -/
def succs (graph : Graph) (node : String) : List String :=
  (alookup graph node).getD []

/-- The mutable state of the source's `topological_sort`: the `ordered` deque
(`appendleft` becomes list cons), the `visited_nodes` colouring dictionary
(updates are consed in front, so lookup sees the latest value) and the
`removed_edges` set (kept as a duplicate-free list in insertion order). -/
structure TSState where
  ordered : List String
  visited : List (String × Color)
  removedEdges : List Edge
deriving DecidableEq, Repr

/-- `visited_nodes.get(node, None)` of the source. -/
def colorOf (st : TSState) (n : String) : Option Color :=
  alookup st.visited n

/-- `removed_edges.add(edge)`: set insertion, a no-op on a present element. -/
def addEdge (e : Edge) (l : List Edge) : List Edge :=
  if e ∈ l then l else l ++ [e]

/-- The body of the source's `for k in graph.get(node, ())` loop inside `dfs`:
a `GRAY` successor records a removed (back) edge, a `BLACK` successor is
skipped, an uncoloured successor is recursed into via `recur` (the recursive
`dfs` call at one unit less fuel). -/
def dfsSuccsWith (recur : String → TSState → TSState) (node : String) :
    List String → TSState → TSState
  | [], st => st
  | k :: ks, st =>
    match colorOf st k with
    | some Color.GRAY =>
        dfsSuccsWith recur node ks
          { st with removedEdges := addEdge (node, k) st.removedEdges }
    | some Color.BLACK => dfsSuccsWith recur node ks st
    | none =>
        dfsSuccsWith recur node ks (recur k st)

/-- The recursive `dfs` of the source, indexed by fuel: colour the node
`GRAY`, process its successors, then prepend it to `ordered` and colour it
`BLACK`.  The exported entry points supply fuel that is provably never
exhausted, so the fuel-0 branch is dead code there. -/
def dfs (graph : Graph) : Nat → String → TSState → TSState
  | 0, _, st => st
  | fuel + 1, node, st =>
    let st1 : TSState := { st with visited := (node, Color.GRAY) :: st.visited }
    let st2 := dfsSuccsWith (fun k s => dfs graph fuel k s) node (succs graph node) st1
    { st2 with ordered := node :: st2.ordered,
               visited := (node, Color.BLACK) :: st2.visited }

/-- The source's `while unprocessed: dfs(unprocessed.pop())` loop.  A node
leaves `unprocessed` exactly when it gets coloured, so the loop is equivalent
to scanning any fixed enumeration `roots` of the keys and running `dfs` on the
still-uncoloured ones. -/
def topSortRoots (graph : Graph) (fuel : Nat) : List String → TSState → TSState
  | [], st => st
  | r :: rs, st =>
    match colorOf st r with
    | none => topSortRoots graph fuel rs (dfs graph fuel r st)
    | some _ => topSortRoots graph fuel rs st

/-- All node identities mentioned by the adjacency dictionary: its keys and
every listed successor (with multiplicity; only membership matters). -/
def allNodesList (graph : Graph) : List String :=
  graph.map Prod.fst ++ graph.flatMap Prod.snd

/-- Fuel that is sufficient for the DFS: one unit more than the number of
mentioned nodes. -/
def fuelB (graph : Graph) : Nat :=
  (allNodesList graph).length + 1

/-- `topological_sort` run with an explicit schedule `roots` for the source's
unordered `while unprocessed` loop. -/
def topological_sortFrom (graph : Graph) (roots : List String) :
    List String × List Edge :=
  let st := topSortRoots graph (fuelB graph) roots ⟨[], [], []⟩
  (st.ordered, st.removedEdges)

/-- `StoryGraph.topological_sort` of the source: sorted node list plus the
edges removed to make the graph acyclic.  The schedule is the keys in
insertion order (one admissible order of Python's `set(graph)`). -/
def topological_sort (graph : Graph) : List String × List Edge :=
  topological_sortFrom graph (graph.map Prod.fst)

/-- The example graph of the source's docstring. -/
def exampleGraph : Graph :=
  [("a", ["b", "c", "d"]), ("b", []), ("c", ["d"]), ("d", []), ("e", ["f"]), ("f", [])]

/-! ## The step data model

The step/checkpoint records live in `rasa_core.training.dsl`, which is not
part of the sources; per the spec a checkpoint is "a label (string identity)"
equal iff the labels are equal, so a checkpoint is embedded as its name.  The
end sentinel ("absence/null" — Python `None`) makes a checkpoint name an
`Option String`. -/

/-- Modelled from the spec: `StoryStep` of `rasa_core.training.dsl` (not in
the sources) — "an immutable unit with: unique identity (string), start
checkpoint label, end checkpoint label".  The event payload is
collaborator-supplied and is modelled separately (`explicit_events`). -/
structure StoryStep where
  id : String
  start_checkpoint : Option String
  end_checkpoint : Option String
deriving DecidableEq, Repr

/-- `step.start_checkpoint_name()` of the dsl: the start label, `None` free. -/
def StoryStep.start_checkpoint_name (s : StoryStep) : Option String :=
  s.start_checkpoint

/-- `step.end_checkpoint_name()` of the dsl: `None` denotes the end
sentinel. -/
def StoryStep.end_checkpoint_name (s : StoryStep) : Option String :=
  s.end_checkpoint

/-- Modelled from the spec: `STORY_START` of `rasa_core.training.dsl` (not in
the sources) — the sentinel checkpoint label at which every story begins. -/
def STORY_START : Option String := some "STORY_START"

/-- Modelled from the spec: `Story` of `rasa_core.training.dsl` (not in the
sources) — "an ordered sequence of steps"; `Story()` is the empty story and
`Story(tracker.story_steps + [step])` appends a step. -/
structure Story where
  story_steps : List StoryStep
deriving DecidableEq, Repr

/-- Modelled from the spec: `step.explicit_events(domain)` — the
collaborator-supplied "method returning the list of concrete events" a step
contributes.  The domain collaborator is embedded as a function from steps to
event lists; the events themselves stay opaque (an arbitrary type). -/
def StoryStep.explicit_events {Event : Type} (s : StoryStep)
    (domain : StoryStep → List Event) : List Event :=
  domain s

/-! ## Graph building (`order_steps`) -/

/-- `StoryGraph._group_by_start_checkpoint` of the source, as the bucket
function of the `defaultdict`: the steps whose start checkpoint equals the
given label, in input order; a label with no incoming steps yields `[]`. -/
def _group_by_start_checkpoint (story_steps : List StoryStep)
    (c : Option String) : List StoryStep :=
  story_steps.filter (fun s => s.start_checkpoint_name = c)

/-- Python dictionary assignment: an existing key keeps its position and
receives the new value, a new key is appended. -/
def dictInsert {β : Type} (k : String) (v : β) :
    List (String × β) → List (String × β)
  | [] => [(k, v)]
  | (k', v') :: rest =>
    if k' = k then (k, v) :: rest else (k', v') :: dictInsert k v rest

/-- A Python dict comprehension: later bindings of the same key override
earlier ones, insertion order of first occurrence is kept. -/
def dictOf {β : Type} (l : List (String × β)) : List (String × β) :=
  l.foldl (fun d p => dictInsert p.1 p.2 d) []

/-- The adjacency dictionary built inside `order_steps`: `s.id` mapped to the
ids of the steps starting at `s`'s end checkpoint. -/
def stepsGraph (story_steps : List StoryStep) : Graph :=
  dictOf (story_steps.map (fun s =>
    (s.id, (_group_by_start_checkpoint story_steps s.end_checkpoint_name).map
      StoryStep.id)))

/-- `StoryGraph.order_steps` of the source: build the adjacency dictionary
and topologically sort it. -/
def order_steps (story_steps : List StoryStep) : List String × List Edge :=
  topological_sort (stepsGraph story_steps)

/-! ## The `StoryGraph` value -/

/-- The fields `StoryGraph.__init__` stores: the step list, the topological
order and cyclic edges computed by `order_steps`, and the end-checkpoint
labels (`None`-or-empty collapses to `[]`, which the plain list argument
already covers). -/
structure StoryGraph where
  story_steps : List StoryStep
  ordered_ids : List String
  cyclic_edge_ids : List Edge
  story_end_checkpoints : List String
deriving DecidableEq, Repr

/-- `StoryGraph.__init__` of the source. -/
def mkStoryGraph (story_steps : List StoryStep)
    (story_end_checkpoints : List String) : StoryGraph :=
  let oc := order_steps story_steps
  { story_steps := story_steps
    ordered_ids := oc.1
    cyclic_edge_ids := oc.2
    story_end_checkpoints := story_end_checkpoints }

/-- `StoryGraph.get` of the source: `step_lookup` is built by a dict
comprehension over `story_steps` (last binding of an id wins), then looked
up with a `None` default. -/
def StoryGraph.get (g : StoryGraph) (step_id : String) : Option StoryStep :=
  g.story_steps.foldl (fun acc s => if s.id = step_id then some s else acc) none

/-- `StoryGraph.ordered_steps` of the source.  The source indexes
`step_lookup` with ids produced by its own sort, which always resolve (the
sort only emits ids of steps of the graph), so the `Option` is eliminated by
`filterMap`. -/
def StoryGraph.ordered_steps (g : StoryGraph) : List StoryStep :=
  g.ordered_ids.filterMap g.get

/-- `StoryGraph.cyclic_edges` of the source, resolved to the step pairs.  As
in `ordered_steps`, the lookups always resolve for graphs the class itself
builds; a pair with a dangling id (impossible there, a `None`-attribute crash
in Python) is dropped. -/
def StoryGraph.cyclic_edge_steps (g : StoryGraph) : List (StoryStep × StoryStep) :=
  g.cyclic_edge_ids.filterMap (fun p =>
    match g.get p.1, g.get p.2 with
    | some s, some e => some (s, e)
    | _, _ => none)

/-! ## Cycle breaking (`with_cycles_removed`) -/

/-- Modelled from the spec: fresh labels from `utils.generate_id("CYCLE_")`
and fresh step ids from `create_copy(use_new_id=True)` (neither module is in
the sources) — "unique per call, non-colliding with any existing label...
via a monotonic counter".  One counter serves both kinds of names. -/
def genCycleLabel (n : Nat) : String := "CYCLE_" ++ toString n

/-- Modelled from the spec: the fresh identity minted by
`StoryStep.create_copy(use_new_id=True)`; see `genCycleLabel`. -/
def genStepId (n : Nat) : String := "GEN_" ++ toString n

/-- `StoryGraph.with_cycles_removed` of the source: drop every step that is
the source of a back edge, then, per back edge `(s, e)`, mint a fresh
checkpoint, append it to the end-checkpoint list, and append a copy of `s`
re-ended at the fresh checkpoint and a copy of `e` re-started there; finally
rebuild the `StoryGraph` (re-running the sort).  `ctr` seeds the
fresh-name counter. -/
def with_cycles_removed (g : StoryGraph) (ctr : Nat) : StoryGraph :=
  let cyclic := g.cyclic_edge_steps
  let steps_to_be_removed := cyclic.map (fun p => p.1.id)
  let kept := g.story_steps.filter (fun s => ¬ steps_to_be_removed.contains s.id)
  let res := cyclic.foldl
    (fun (acc : List StoryStep × List String × Nat) p =>
      let cid := genCycleLabel acc.2.2
      let modified_start : StoryStep :=
        { p.1 with id := genStepId (acc.2.2 + 1), end_checkpoint := some cid }
      let modified_end : StoryStep :=
        { p.2 with id := genStepId (acc.2.2 + 2), start_checkpoint := some cid }
      (acc.1 ++ [modified_start, modified_end], acc.2.1 ++ [cid], acc.2.2 + 3))
    (kept, g.story_end_checkpoints, ctr)
  mkStoryGraph res.1 res.2.1

/-! ## Story enumeration (`build_stories`) -/

/-- A simple linear congruential step: the deterministic pseudo-random state
transition used by the spec-modelled subsampler. -/
def lcgNext (s : Nat) : Nat := (s * 1103515245 + 12345) % 2 ^ 31

/-- Draw `n` elements without replacement, threading the generator state:
the index `r % length` is picked, removed, and the generator advanced. -/
def randSelect {α : Type} : Nat → Nat → List α → List α × Nat
  | r, 0, _ => ([], r)
  | r, _ + 1, [] => ([], r)
  | r, n + 1, a :: as =>
    let l := a :: as
    let i := r % l.length
    let picked := l.get ⟨i, Nat.mod_lt _ (Nat.succ_pos as.length)⟩
    let res := randSelect (lcgNext r) n (l.eraseIdx i)
    (picked :: res.1, res.2)

/-- Modelled from the spec: `utils.subsample_array` (module `rasa_core.utils`,
not in the sources) — "subsample down to that maximum using the seeded
deterministic random generator (uniform random subset, no replacement)".
Returns the subsample together with the advanced generator state. -/
def subsample_array {α : Type} (arr : List α) (max_values : Nat) (r : Nat) :
    List α × Nat :=
  randSelect r max_values arr

/-- The `active_trackers` dictionary of `build_stories`: checkpoint name
(`none` is the end sentinel) mapped to the partial stories ending there. -/
abbrev Frontier := List (Option String × List Story)

/-- The partial stories currently ending at a checkpoint (`[]` when the
checkpoint has no entry; used only to state theorems). -/
def frontierAt (f : Frontier) (c : Option String) : List Story :=
  (alookup f c).getD []

/-- The source's entry update: `if key not in active_trackers:
active_trackers[key] = []` followed by `active_trackers[key].extend(trackers)`
— append to an existing entry, create the entry (even an empty one)
otherwise. -/
def fextend (k : Option String) (v : List Story) : Frontier → Frontier
  | [] => [(k, v)]
  | (k', v') :: rest =>
    if k' = k then (k', v' ++ v) :: rest else (k', v') :: fextend k v rest

/-- One iteration of the `for step in self.ordered_steps()` loop of
`build_stories`: skip the step when its start checkpoint has no frontier
entry; otherwise subsample the incoming stories (when a maximum is set),
derive the step's events, extend each incoming story by the step when the
event list is non-empty (`trackers = []` otherwise — the source's "small
optimization"), and extend the frontier entry of the end checkpoint. -/
def processStep {Event : Type} (domain : StoryStep → List Event)
    (max_number_of_trackers : Option Nat) (acc : Frontier × Nat)
    (step : StoryStep) : Frontier × Nat :=
  match alookup acc.1 step.start_checkpoint_name with
  | none => acc
  | some incoming_trackers =>
    let sub :=
      match max_number_of_trackers with
      | some m => subsample_array incoming_trackers m acc.2
      | none => (incoming_trackers, acc.2)
    let events := step.explicit_events domain
    let trackers : List Story :=
      match events with
      | [] => []
      | _ :: _ => sub.1.map (fun t => ⟨t.story_steps ++ [step]⟩)
    (fextend step.end_checkpoint_name trackers acc.1, sub.2)

/-- The frontier (and generator state) after the whole loop of
`build_stories`: seeded with one empty story at `STORY_START` and the fixed
seed 42 of `random.Random(42)`. -/
def finalFrontier {Event : Type} (g : StoryGraph)
    (domain : StoryStep → List Event) (max_number_of_trackers : Option Nat) :
    Frontier × Nat :=
  g.ordered_steps.foldl (processStep domain max_number_of_trackers)
    ([(STORY_START, [⟨[]⟩])], 42)

/-- `StoryGraph.build_stories` of the source.  The final
`active_trackers[None]` is a plain subscript: when no processed step ever
created the end-sentinel entry it raises `KeyError`, embedded as
`Except.error`. -/
def build_stories {Event : Type} (g : StoryGraph)
    (domain : StoryStep → List Event) (max_number_of_trackers : Option Nat) :
    Except String (List Story) :=
  match alookup (finalFrontier g domain max_number_of_trackers).1 none with
  | some trackers => Except.ok trackers
  | none => Except.error "KeyError: None"

/-- The nodes of the graph not yet coloured by the traversal; the DFS fuel is
measured against this quantity. -/
def countU (graph : Graph) (st : TSState) : Nat :=
  ((allNodesList graph).filter (fun n => (colorOf st n).isNone)).length

/-- The state invariant of the traversal: the output contains no duplicates,
matches the `BLACK` colouring exactly, and every successor of an emitted node
is either behind it in the output or recorded as a removed edge. -/
def SortInv (graph : Graph) (st : TSState) : Prop :=
  st.ordered.Nodup ∧
  (∀ n, n ∈ st.ordered ↔ colorOf st n = some Color.BLACK) ∧
  (∀ n, n ∈ st.ordered → ∀ k, k ∈ succs graph n →
    (n, k) ∈ st.removedEdges ∨ ∃ p q, st.ordered = p ++ n :: q ∧ k ∈ q)

/-- What a single (sub)traversal guarantees about the state transition:
the invariant is preserved, colours are only gained (and `GRAY` never
appears from nowhere), the output grows by prepending, the removed-edge set
grows by appending, and new output nodes come from the graph. -/
def DfsPost (graph : Graph) (st st' : TSState) : Prop :=
  SortInv graph st' ∧
  (∀ m c, colorOf st m = some c → colorOf st' m = some c) ∧
  (∀ m, colorOf st' m = some Color.GRAY → colorOf st m = some Color.GRAY) ∧
  (∃ d, st'.ordered = d ++ st.ordered) ∧
  (∃ d, st'.removedEdges = st.removedEdges ++ d) ∧
  (∀ m, m ∈ st'.ordered → m ∈ st.ordered ∨ m ∈ allNodesList graph)

/-- The statement proved about `dfs` at a given fuel: on an uncoloured graph
node with fuel at least the number of uncoloured nodes, the traversal
satisfies `DfsPost` and finishes the node (`BLACK`). -/
def PProp (graph : Graph) (f : Nat) : Prop :=
  ∀ n st, colorOf st n = none → n ∈ allNodesList graph →
    countU graph st ≤ f → SortInv graph st →
    DfsPost graph st (dfs graph f n st) ∧
      colorOf (dfs graph f n st) n = some Color.BLACK

/-- The statement proved about the successor loop at a given fuel: it
satisfies `DfsPost` and leaves every scanned successor either recorded as a
removed edge or already emitted. -/
def QProp (graph : Graph) (f : Nat) : Prop :=
  ∀ ks n st, (∀ k, k ∈ ks → k ∈ allNodesList graph) →
    countU graph st ≤ f → SortInv graph st →
    DfsPost graph st (dfsSuccsWith (fun k s => dfs graph f k s) n ks st) ∧
      (∀ k, k ∈ ks →
        (n, k) ∈ (dfsSuccsWith (fun k s => dfs graph f k s) n ks st).removedEdges ∨
          k ∈ (dfsSuccsWith (fun k s => dfs graph f k s) n ks st).ordered)

/-- The empty starting state of `topological_sort`. -/
def initTS : TSState := ⟨[], [], []⟩

/-! ## A heap model of `with_cycles_removed`

The frame claim about `with_cycles_removed` concerns Python's reference
semantics: `create_copy(use_new_id=True)` must allocate an independent
object, so that the two attribute assignments of the loop mutate only the
fresh copies and never the receiver's steps.  The heap maps object addresses
to step records; a `StoryGraphRef` holds addresses instead of records. -/

/-- An object store: addresses mapped to step records. -/
abbrev Heap := List (Nat × StoryStep)

/-- Dereference an address. -/
def hget (h : Heap) (a : Nat) : Option StoryStep := alookup h a

/-- An attribute assignment on the object at the given address. -/
def hupdate (h : Heap) (a : Nat) (f : StoryStep → StoryStep) : Heap :=
  h.map (fun p => (p.1, if p.1 = a then f p.2 else p.2))

/-- `StoryGraph` under reference semantics: the step list holds addresses. -/
structure StoryGraphRef where
  story_steps : List Nat
  ordered_ids : List String
  cyclic_edge_ids : List Edge
  story_end_checkpoints : List String
deriving DecidableEq, Repr

/-- `StoryGraph.__init__` under reference semantics: the order and cyclic
edges are computed from the dereferenced records. -/
def mkStoryGraphRef (h : Heap) (refs : List Nat)
    (story_end_checkpoints : List String) : StoryGraphRef :=
  let oc := order_steps (refs.filterMap (hget h))
  { story_steps := refs
    ordered_ids := oc.1
    cyclic_edge_ids := oc.2
    story_end_checkpoints := story_end_checkpoints }

/-- `step_lookup` under reference semantics: the last step address whose
record carries the given id (dict comprehension semantics). -/
def getAddrById (h : Heap) (refs : List Nat) (i : String) : Option Nat :=
  refs.foldl (fun acc a =>
    match hget h a with
    | some s => if s.id = i then some a else acc
    | none => acc) none

/-- The `for s, e in cyclic_edges` loop of `with_cycles_removed` under
reference semantics.  Per back-edge pair of step addresses: mint the fresh
checkpoint (`generate_id`), allocate the copy of the start step with a fresh
identity (`create_copy(use_new_id=True)`), assign its `end_checkpoint`
attribute, allocate the copy of the end step, assign its `start_checkpoint`
attribute, and append both addresses; the counter provides fresh addresses
and names.  An unresolvable address pair (impossible for pairs produced by
the class itself) is skipped. -/
def cycleLoop : List (Nat × Nat) → Heap → List Nat → List String → Nat →
    Heap × List Nat × List String × Nat
  | [], h, refs, ecs, c => (h, refs, ecs, c)
  | (a, b) :: rest, h, refs, ecs, c =>
    match hget h a, hget h b with
    | some s, some e =>
      let cid := genCycleLabel c
      let h1 := h ++ [(c, { s with id := genStepId c })]
      let h2 := hupdate h1 c (fun t => { t with end_checkpoint := some cid })
      let h3 := h2 ++ [(c + 1, { e with id := genStepId (c + 1) })]
      let h4 := hupdate h3 (c + 1)
        (fun t => { t with start_checkpoint := some cid })
      cycleLoop rest h4 (refs ++ [c, c + 1]) (ecs ++ [cid]) (c + 2)
    | _, _ => cycleLoop rest h refs ecs c

/-- `with_cycles_removed` under reference semantics: resolve the cyclic edge
ids to step addresses, remove the steps whose id sources a back edge, run the
copy loop, and construct the new `StoryGraph` from the resulting step
addresses and the extended end-checkpoint list.  Returns the new graph, the
final heap and the advanced counter. -/
def with_cycles_removedHeap (g : StoryGraphRef) (h : Heap) (ctr : Nat) :
    StoryGraphRef × Heap × Nat :=
  let cyclicAddrs : List (Nat × Nat) := g.cyclic_edge_ids.filterMap (fun p =>
    match getAddrById h g.story_steps p.1, getAddrById h g.story_steps p.2 with
    | some a, some b => some (a, b)
    | _, _ => none)
  let steps_to_be_removed : List String :=
    cyclicAddrs.filterMap (fun p => (hget h p.1).map StoryStep.id)
  let kept : List Nat := g.story_steps.filter (fun ad =>
    !(((hget h ad).map (fun s => steps_to_be_removed.contains s.id)).getD false))
  let res := cycleLoop cyclicAddrs h kept g.story_end_checkpoints ctr
  (mkStoryGraphRef res.1 res.2.1 res.2.2.1, res.1, res.2.2.2)

/-! ## Concrete fixtures used by the claims -/

/-- Decides that `u`'s first occurrence in `l` is followed by `v`. -/
def beforeIn : List String → String → String → Bool
  | [], _, _ => false
  | x :: xs, u, v => if x = u then xs.contains v else beforeIn xs u v

/-- Decides that `l` is a valid total order of `graph` after deleting the
`removed` edges: every node exactly once, no strangers, and every retained
edge points forward. -/
def isValidTotalOrderOn (graph : Graph) (removed : List Edge)
    (l : List String) : Bool :=
  (graph.map Prod.fst).all (fun k => l.count k == 1) &&
  l.all (fun n => (graph.map Prod.fst).contains n) &&
  graph.all (fun p => p.2.all (fun v =>
    removed.contains (p.1, v) || beforeIn l p.1 v))

/-- The adjacency dictionary of the known 3-node cycle A→B→C→A. -/
def cycleABC : Graph := [("A", ["B"]), ("B", ["C"]), ("C", ["A"])]

/-- Step A→B of the 3-step cycle fixture. -/
def cycleStepA : StoryStep := ⟨"s1", some "A", some "B"⟩

/-- Step B→C of the 3-step cycle fixture. -/
def cycleStepB : StoryStep := ⟨"s2", some "B", some "C"⟩

/-- Step C→A of the 3-step cycle fixture, closing the cycle. -/
def cycleStepC : StoryStep := ⟨"s3", some "C", some "A"⟩

/-- A `StoryGraph` built from the 3-step cycle. -/
def cycleGraph3 : StoryGraph :=
  mkStoryGraph [cycleStepA, cycleStepB, cycleStepC] []

/-- A `StoryGraph` built from a 2-step cycle A→B→A. -/
def cycleGraph2 : StoryGraph :=
  mkStoryGraph [⟨"u", some "A", some "B"⟩, ⟨"v", some "B", some "A"⟩] []

/-- A `StoryGraph` built from zero steps. -/
def zeroStepGraph : StoryGraph := mkStoryGraph [] []

/-- A domain collaborator contributing no events to any step. -/
def noEventsDomain : StoryStep → List Nat := fun _ => []

/-- A domain collaborator contributing one event to every step. -/
def oneEventDomain : StoryStep → List Nat := fun _ => [0]

/-- A single step from the start sentinel straight to the end sentinel. -/
def endStep : StoryStep := ⟨"s1", STORY_START, none⟩

/-- The one-step graph reaching the end sentinel. -/
def endStepGraph : StoryGraph := mkStoryGraph [endStep] []

/-- A linear two-step story: start → S1 → C1 → S2 → end. -/
def linearGraph : StoryGraph :=
  mkStoryGraph [⟨"S1", STORY_START, some "C1"⟩, ⟨"S2", some "C1", none⟩] []

/-- A frontier with three partial stories at checkpoint A (for the
subsampling fixture). -/
def threeAtA : Frontier := [(some "A", [⟨[]⟩, ⟨[⟨"x", some "P", some "A"⟩]⟩,
  ⟨[⟨"y", some "P", some "A"⟩]⟩])]

/-- A step consuming checkpoint A and ending at the end sentinel. -/
def stepFromA : StoryStep := ⟨"t", some "A", none⟩

/-- The heap of the 3-step cycle fixture (reference semantics). -/
def wHeap : Heap := [(0, cycleStepA), (1, cycleStepB), (2, cycleStepC)]

/-- The `StoryGraph` of the 3-step cycle fixture under reference
semantics. -/
def wRef : StoryGraphRef := mkStoryGraphRef wHeap [0, 1, 2] []

/-! ## Association-list and counting lemmas -/

theorem alookup_mem {α β : Type} [DecidableEq α] {l : List (α × β)} {a : α}
    {b : β} (h : alookup l a = some b) : (a, b) ∈ l := by
  induction l with
  | nil => simp [alookup] at h
  | cons p rest ih =>
    obtain ⟨k, v⟩ := p
    by_cases hk : k = a
    · subst hk
      simp [alookup] at h
      subst h
      exact List.mem_cons_self _ _
    · simp [alookup, hk] at h
      exact List.mem_cons_of_mem _ (ih h)

theorem alookup_isSome_of_mem_keys {α β : Type} [DecidableEq α]
    {l : List (α × β)} {a : α} (h : a ∈ l.map Prod.fst) :
    (alookup l a).isSome := by
  induction l with
  | nil => simp at h
  | cons p rest ih =>
    obtain ⟨k, v⟩ := p
    by_cases hk : k = a
    · simp [alookup, hk]
    · simp at h
      rcases h with h | h
      · exact absurd h.symm hk
      · simp [alookup, hk]
        exact ih (by simpa using h)

theorem mem_keys_of_alookup {α β : Type} [DecidableEq α] {l : List (α × β)}
    {a : α} {b : β} (h : alookup l a = some b) : a ∈ l.map Prod.fst := by
  have := alookup_mem h
  exact List.mem_map.mpr ⟨(a, b), this, rfl⟩

theorem length_filter_le_of_imp {α : Type} {l : List α} {p q : α → Bool}
    (h : ∀ a, p a = true → q a = true) :
    (l.filter p).length ≤ (l.filter q).length := by
  induction l with
  | nil => simp
  | cons a t ih =>
    by_cases hp : p a
    · have hq := h a hp
      simp [List.filter_cons, hp, hq]
      exact ih
    · by_cases hq : q a
      · simp [List.filter_cons, hp, hq]
        exact Nat.le_succ_of_le ih
      · simp [List.filter_cons, hp, hq]
        exact ih

theorem length_filter_lt {α : Type} {l : List α} {p q : α → Bool} {n : α}
    (hn : n ∈ l) (hpn : p n = true) (hqn : q n = false)
    (h : ∀ a, q a = true → p a = true) :
    (l.filter q).length < (l.filter p).length := by
  induction l with
  | nil => cases hn
  | cons a t ih =>
    rcases List.mem_cons.mp hn with rfl | hmem
    · simp [List.filter_cons, hpn, hqn]
      exact Nat.lt_succ_of_le (length_filter_le_of_imp h)
    · by_cases hq : q a
      · have hp := h a hq
        simp [List.filter_cons, hq, hp]
        exact ih hmem
      · by_cases hp : p a
        · simp [List.filter_cons, hq, hp]
          exact Nat.lt_succ_of_lt (ih hmem)
        · simp [List.filter_cons, hq, hp]
          exact ih hmem

theorem pos_length_filter {α : Type} {l : List α} {p : α → Bool} {n : α}
    (hn : n ∈ l) (hpn : p n = true) : 0 < (l.filter p).length :=
  List.length_pos_of_mem (List.mem_filter.mpr ⟨hn, hpn⟩)

/-! ## Correctness of the DFS (`topological_sort`) -/

theorem countU_le (graph : Graph) (st : TSState) :
    countU graph st ≤ (allNodesList graph).length :=
  List.length_filter_le _ _

theorem countU_mono {graph : Graph} {st st' : TSState}
    (h : ∀ m c, colorOf st m = some c → colorOf st' m = some c) :
    countU graph st' ≤ countU graph st := by
  refine length_filter_le_of_imp (fun a ha => ?_)
  simp only [Option.isNone_iff_eq_none] at ha ⊢
  rcases hc : colorOf st a with _ | c
  · rfl
  · exact absurd (h a c hc) (by simp [ha])

theorem colorOf_push {st st' : TSState} {n : String} {c : Color}
    (h : st'.visited = (n, c) :: st.visited) (m : String) :
    colorOf st' m = if n = m then some c else colorOf st m := by
  simp [colorOf, h, alookup]

theorem countU_push_gray {graph : Graph} {st st' : TSState} {n : String}
    (h : st'.visited = (n, Color.GRAY) :: st.visited)
    (hmem : n ∈ allNodesList graph) (hnone : colorOf st n = none) :
    countU graph st' < countU graph st := by
  refine length_filter_lt hmem ?_ ?_ ?_
  · simp [hnone]
  · simp [colorOf_push h]
  · intro a ha
    simp only [Option.isNone_iff_eq_none, colorOf_push h] at ha ⊢
    by_cases hna : n = a
    · simp [hna] at ha
    · simpa [hna] using ha

theorem mem_allNodes_of_mem_succs {graph : Graph} {n k : String}
    (h : k ∈ succs graph n) : k ∈ allNodesList graph := by
  unfold succs at h
  rcases hl : alookup graph n with _ | l
  · simp [hl] at h
  · have hmem := alookup_mem hl
    simp [hl] at h
    exact List.mem_append_right _
      (List.mem_flatMap.mpr ⟨(n, l), hmem, h⟩)

theorem mem_keys_of_mem_succs {graph : Graph} {n k : String}
    (h : k ∈ succs graph n) : n ∈ graph.map Prod.fst := by
  unfold succs at h
  rcases hl : alookup graph n with _ | l
  · simp [hl] at h
  · exact mem_keys_of_alookup hl

theorem mem_addEdge_of_mem {e e' : Edge} {l : List Edge} (h : e ∈ l) :
    e ∈ addEdge e' l := by
  unfold addEdge
  by_cases he : e' ∈ l
  · simpa [he]
  · simp [he, List.mem_append, h]

theorem mem_addEdge_self (e : Edge) (l : List Edge) : e ∈ addEdge e l := by
  unfold addEdge
  by_cases he : e ∈ l
  · simp [he]
  · simp [he]

theorem addEdge_append (e : Edge) (l : List Edge) :
    ∃ d, addEdge e l = l ++ d := by
  unfold addEdge
  by_cases he : e ∈ l
  · exact ⟨[], by simp [he]⟩
  · exact ⟨[e], by simp [he]⟩

theorem DfsPost.refl {graph : Graph} {st : TSState} (h : SortInv graph st) :
    DfsPost graph st st :=
  ⟨h, fun _ _ hc => hc, fun _ hc => hc, ⟨[], rfl⟩, ⟨[], by simp⟩,
    fun _ hm => Or.inl hm⟩

theorem DfsPost.trans {graph : Graph} {st1 st2 st3 : TSState}
    (h12 : DfsPost graph st1 st2) (h23 : DfsPost graph st2 st3) :
    DfsPost graph st1 st3 := by
  obtain ⟨i12, c12, g12, ⟨d12, o12⟩, ⟨r12, e12⟩, m12⟩ := h12
  obtain ⟨i23, c23, g23, ⟨d23, o23⟩, ⟨r23, e23⟩, m23⟩ := h23
  refine ⟨i23, fun m c hc => c23 m c (c12 m c hc),
    fun m hc => g12 m (g23 m hc), ⟨d23 ++ d12, by rw [o23, o12, List.append_assoc]⟩,
    ⟨r12 ++ r23, by rw [e23, e12, List.append_assoc]⟩, fun m hm => ?_⟩
  rcases m23 m hm with hm2 | hm2
  · exact m12 m hm2
  · exact Or.inr hm2

theorem PProp_zero (graph : Graph) : PProp graph 0 := by
  intro n st hnone hmem hcount _
  exfalso
  have hpos : 0 < countU graph st :=
    pos_length_filter hmem (by simp [hnone])
  omega

theorem QProp_of_PProp (graph : Graph) (f : Nat) (hP : PProp graph f) :
    QProp graph f := by
  intro ks
  induction ks with
  | nil =>
    intro n st _ _ hInv
    exact ⟨DfsPost.refl hInv, by simp⟩
  | cons k ks ih =>
    intro n st hks hcount hInv
    have hkall : k ∈ allNodesList graph := hks k (List.mem_cons_self _ _)
    have hksall : ∀ k', k' ∈ ks → k' ∈ allNodesList graph :=
      fun k' hk' => hks k' (List.mem_cons_of_mem _ hk')
    rcases hc : colorOf st k with _ | c
    · -- unvisited successor: recurse
      obtain ⟨post1, hblack⟩ := hP k st hc hkall hcount hInv
      have hcount1 : countU graph (dfs graph f k st) ≤ f :=
        le_trans (countU_mono post1.2.1) hcount
      obtain ⟨post2, hhandled⟩ := ih n (dfs graph f k st) hksall hcount1 post1.1
      constructor
      · simp only [dfsSuccsWith, hc]
        exact post1.trans post2
      · intro k' hk'
        simp only [dfsSuccsWith, hc]
        rcases List.mem_cons.mp hk' with rfl | hmem
        · have hmem1 : k' ∈ (dfs graph f k' st).ordered :=
            (post1.1.2.1 k').mpr hblack
          right
          obtain ⟨d, hd⟩ := post2.2.2.2.1
          rw [hd]
          exact List.mem_append_right _ hmem1
        · exact hhandled k' hmem
    · cases c with
      | GRAY =>
        -- back edge recorded
        have hInvE : SortInv graph
            { st with removedEdges := addEdge (n, k) st.removedEdges } := by
          obtain ⟨h1, h2, h3⟩ := hInv
          refine ⟨h1, h2, fun m hm k' hk' => ?_⟩
          rcases h3 m hm k' hk' with hmem | hmem
          · exact Or.inl (mem_addEdge_of_mem hmem)
          · exact Or.inr hmem
        obtain ⟨post2, hhandled⟩ :=
          ih n { st with removedEdges := addEdge (n, k) st.removedEdges }
            hksall hcount hInvE
        have postE : DfsPost graph st
            { st with removedEdges := addEdge (n, k) st.removedEdges } :=
          ⟨hInvE, fun _ _ hcm => hcm, fun _ hcm => hcm, ⟨[], rfl⟩,
            addEdge_append _ _, fun _ hm => Or.inl hm⟩
        constructor
        · simp only [dfsSuccsWith, hc]
          exact postE.trans post2
        · intro k' hk'
          simp only [dfsSuccsWith, hc]
          rcases List.mem_cons.mp hk' with rfl | hmem
          · left
            obtain ⟨d, hd⟩ := post2.2.2.2.2.1
            rw [hd]
            exact List.mem_append_left _ (mem_addEdge_self _ _)
          · exact hhandled k' hmem
      | BLACK =>
        obtain ⟨post2, hhandled⟩ := ih n st hksall hcount hInv
        constructor
        · simp only [dfsSuccsWith, hc]
          exact post2
        · intro k' hk'
          simp only [dfsSuccsWith, hc]
          rcases List.mem_cons.mp hk' with rfl | hmem
          · right
            have hmem0 : k' ∈ st.ordered := (hInv.2.1 k').mpr hc
            obtain ⟨d, hd⟩ := post2.2.2.2.1
            rw [hd]
            exact List.mem_append_right _ hmem0
          · exact hhandled k' hmem

theorem PProp_succ (graph : Graph) (f : Nat) (hQ : QProp graph f) :
    PProp graph (f + 1) := by
  intro n st hnone hmem hcount hInv
  simp only [dfs]
  set st1 : TSState := { st with visited := (n, Color.GRAY) :: st.visited }
    with hst1
  have hv1 : st1.visited = (n, Color.GRAY) :: st.visited := rfl
  have hcolor1 : ∀ m, colorOf st1 m
      = if n = m then some Color.GRAY else colorOf st m := colorOf_push hv1
  have hInv1 : SortInv graph st1 := by
    obtain ⟨h1, h2, h3⟩ := hInv
    refine ⟨h1, fun m => ?_, h3⟩
    by_cases hnm : n = m
    · subst hnm
      constructor
      · intro hmem1
        exact absurd ((h2 n).mp hmem1) (by simp [hnone])
      · intro hb
        rw [hcolor1 n] at hb
        simp at hb
    · rw [hcolor1 m]
      simpa [hnm] using h2 m
  have hcount1 : countU graph st1 ≤ f := by
    have := countU_push_gray hv1 hmem hnone
    omega
  have hsuccs : ∀ k, k ∈ succs graph n → k ∈ allNodesList graph :=
    fun k hk => mem_allNodes_of_mem_succs hk
  obtain ⟨post12, hhandled⟩ := hQ (succs graph n) n st1 hsuccs hcount1 hInv1
  set st2 := dfsSuccsWith (fun k s => dfs graph f k s) n (succs graph n) st1
    with hst2
  have hgray2 : colorOf st2 n = some Color.GRAY :=
    post12.2.1 n Color.GRAY (by rw [hcolor1 n]; simp)
  set st' : TSState := { st2 with ordered := n :: st2.ordered,
                                  visited := (n, Color.BLACK) :: st2.visited }
    with hst'
  have hv' : st'.visited = (n, Color.BLACK) :: st2.visited := rfl
  have hcolor' : ∀ m, colorOf st' m
      = if n = m then some Color.BLACK else colorOf st2 m := colorOf_push hv'
  have hnmem2 : n ∉ st2.ordered := by
    intro hn
    have := (post12.1.2.1 n).mp hn
    rw [hgray2] at this
    cases this
  have hInv' : SortInv graph st' := by
    obtain ⟨i1, i2, i3⟩ := post12.1
    refine ⟨List.nodup_cons.mpr ⟨hnmem2, i1⟩, fun m => ?_, fun m hm k hk => ?_⟩
    · by_cases hnm : n = m
      · subst hnm
        simp [hcolor' n, List.mem_cons]
      · rw [hcolor' m]
        simp only [if_neg hnm]
        constructor
        · intro hm
          rcases List.mem_cons.mp hm with rfl | hm'
          · exact absurd rfl hnm
          · exact (i2 m).mp hm'
        · intro hb
          exact List.mem_cons_of_mem _ ((i2 m).mpr hb)
    · rcases List.mem_cons.mp hm with rfl | hm'
      · rcases hhandled k hk with hrem | hord
        · exact Or.inl hrem
        · exact Or.inr ⟨[], st2.ordered, rfl, hord⟩
      · rcases i3 m hm' k hk with hrem | ⟨p, q, hpq, hkq⟩
        · exact Or.inl hrem
        · exact Or.inr ⟨n :: p, q, by simp [hpq], hkq⟩
  have hordgrow : ∃ d, st'.ordered = d ++ st.ordered := by
    obtain ⟨d, hd⟩ := post12.2.2.2.1
    exact ⟨n :: d, by simp [hst', hd]⟩
  have hremgrow : ∃ d, st'.removedEdges = st.removedEdges ++ d := by
    obtain ⟨d, hd⟩ := post12.2.2.2.2.1
    exact ⟨d, hd⟩
  refine ⟨⟨hInv', ?_, ?_, hordgrow, hremgrow, ?_⟩, ?_⟩
  · intro m c hc
    have hnm : n ≠ m := fun h => by
      subst h
      rw [hnone] at hc
      cases hc
    rw [hcolor' m, if_neg hnm]
    exact post12.2.1 m c (by rw [hcolor1 m, if_neg hnm]; exact hc)
  · intro m hg
    rw [hcolor' m] at hg
    by_cases hnm : n = m
    · rw [if_pos hnm] at hg
      cases hg
    · rw [if_neg hnm] at hg
      have := post12.2.2.1 m hg
      rw [hcolor1 m, if_neg hnm] at this
      exact this
  · intro m hm
    rcases List.mem_cons.mp hm with rfl | hm'
    · exact Or.inr hmem
    · exact post12.2.2.2.2.2 m hm'
  · rw [hcolor' n]
    simp

theorem dfs_main (graph : Graph) : ∀ f, PProp graph f ∧ QProp graph f := by
  intro f
  induction f with
  | zero =>
    exact ⟨PProp_zero graph, QProp_of_PProp graph 0 (PProp_zero graph)⟩
  | succ f ih =>
    have hp := PProp_succ graph f ih.2
    exact ⟨hp, QProp_of_PProp graph (f + 1) hp⟩

theorem topSortRoots_spec (graph : Graph) :
    ∀ roots st, (∀ r, r ∈ roots → r ∈ allNodesList graph) →
      SortInv graph st → (∀ m, ¬ colorOf st m = some Color.GRAY) →
      DfsPost graph st (topSortRoots graph (fuelB graph) roots st) ∧
        (∀ r, r ∈ roots →
          colorOf (topSortRoots graph (fuelB graph) roots st) r
            = some Color.BLACK) ∧
        (∀ m, ¬ colorOf (topSortRoots graph (fuelB graph) roots st) m
            = some Color.GRAY) := by
  intro roots
  induction roots with
  | nil =>
    intro st _ hInv hng
    exact ⟨DfsPost.refl hInv, by simp, hng⟩
  | cons r rs ih =>
    intro st hall hInv hng
    rcases hc : colorOf st r with _ | c
    · have hP := (dfs_main graph (fuelB graph)).1
      obtain ⟨post1, hblack⟩ := hP r st hc (hall r (by simp))
        (le_trans (countU_le graph st) (Nat.le_succ _)) hInv
      have hng1 : ∀ m,
          ¬ colorOf (dfs graph (fuelB graph) r st) m = some Color.GRAY :=
        fun m hm => hng m (post1.2.2.1 m hm)
      obtain ⟨post2, hblacks, hng2⟩ := ih (dfs graph (fuelB graph) r st)
        (fun r' hr' => hall r' (by simp [hr'])) post1.1 hng1
      refine ⟨?_, ?_, ?_⟩
      · simp only [topSortRoots, hc]
        exact post1.trans post2
      · intro r' hr'
        simp only [topSortRoots, hc]
        rcases List.mem_cons.mp hr' with rfl | hmem
        · exact post2.2.1 r' Color.BLACK hblack
        · exact hblacks r' hmem
      · intro m
        simp only [topSortRoots, hc]
        exact hng2 m
    · have hcb : c = Color.BLACK := by
        cases c
        · exact absurd hc (hng r)
        · rfl
      subst hcb
      obtain ⟨post2, hblacks, hng2⟩ := ih st
        (fun r' hr' => hall r' (by simp [hr'])) hInv hng
      refine ⟨?_, ?_, ?_⟩
      · simp only [topSortRoots, hc]
        exact post2
      · intro r' hr'
        simp only [topSortRoots, hc]
        rcases List.mem_cons.mp hr' with rfl | hmem
        · exact post2.2.1 r' Color.BLACK hc
        · exact hblacks r' hmem
      · intro m
        simp only [topSortRoots, hc]
        exact hng2 m

theorem initTS_inv (graph : Graph) : SortInv graph initTS := by
  refine ⟨List.nodup_nil, fun n => ?_, fun n hn => absurd hn (by simp [initTS])⟩
  simp [initTS, colorOf, alookup]

theorem topological_sortFrom_spec (graph : Graph) (roots : List String)
    (hroots : ∀ r, r ∈ roots → r ∈ allNodesList graph) :
    (topological_sortFrom graph roots).1.Nodup ∧
    (∀ r, r ∈ roots → r ∈ (topological_sortFrom graph roots).1) ∧
    (∀ m, m ∈ (topological_sortFrom graph roots).1 → m ∈ allNodesList graph) ∧
    (∀ u v, u ∈ (topological_sortFrom graph roots).1 → v ∈ succs graph u →
      (u, v) ∈ (topological_sortFrom graph roots).2 ∨
        ∃ p q, (topological_sortFrom graph roots).1 = p ++ u :: q ∧ v ∈ q) := by
  have hng : ∀ m, ¬ colorOf initTS m = some Color.GRAY := by
    intro m
    simp [initTS, colorOf, alookup]
  obtain ⟨post, hblacks, _⟩ :=
    topSortRoots_spec graph roots initTS hroots (initTS_inv graph) hng
  obtain ⟨⟨i1, i2, i3⟩, _, _, _, _, hnew⟩ := post
  refine ⟨i1, ?_, ?_, ?_⟩
  · intro r hr
    exact (i2 r).mpr (hblacks r hr)
  · intro m hm
    rcases hnew m hm with hm' | hm'
    · exact absurd hm' (List.not_mem_nil m)
    · exact hm'
  · intro u v hu hv
    exact i3 u hu v hv

theorem topological_sort_nodup (graph : Graph) :
    (topological_sort graph).1.Nodup :=
  (topological_sortFrom_spec graph (graph.map Prod.fst)
    (fun _ hr => List.mem_append_left _ hr)).1

theorem topological_sort_mem_of_key (graph : Graph) {u : String}
    (hu : u ∈ graph.map Prod.fst) : u ∈ (topological_sort graph).1 :=
  (topological_sortFrom_spec graph (graph.map Prod.fst)
    (fun _ hr => List.mem_append_left _ hr)).2.1 u hu

theorem topological_sort_mem_allNodes (graph : Graph) {m : String}
    (hm : m ∈ (topological_sort graph).1) : m ∈ allNodesList graph :=
  (topological_sortFrom_spec graph (graph.map Prod.fst)
    (fun _ hr => List.mem_append_left _ hr)).2.2.1 m hm

/-- Precedence correctness of the sort: every edge of the graph is either
recorded as removed or respected by the output order. -/
theorem topological_sort_precedes (graph : Graph) {u v : String}
    (hv : v ∈ succs graph u)
    (hret : (u, v) ∉ (topological_sort graph).2) :
    ∃ p q, (topological_sort graph).1 = p ++ u :: q ∧ v ∈ q := by
  have hu : u ∈ (topological_sort graph).1 :=
    topological_sort_mem_of_key graph (mem_keys_of_mem_succs hv)
  rcases (topological_sortFrom_spec graph (graph.map Prod.fst)
      (fun _ hr => List.mem_append_left _ hr)).2.2.2 u v hu hv with hrem | hpq
  · exact absurd hrem hret
  · exact hpq

/-! ## Totality of `order_steps` -/

theorem dictInsert_mem_keys {β : Type} {k : String} {v : β}
    {d : List (String × β)} {m : String} :
    m ∈ (dictInsert k v d).map Prod.fst ↔ m = k ∨ m ∈ d.map Prod.fst := by
  induction d with
  | nil => simp [dictInsert]
  | cons p rest ih =>
    obtain ⟨k', v'⟩ := p
    by_cases hk : k' = k
    · subst hk
      simp [dictInsert]
    · simp only [dictInsert, if_neg hk, List.map_cons, List.mem_cons, ih]
      tauto

theorem dictOf_mem_keys {β : Type} {l : List (String × β)} {m : String} :
    m ∈ (dictOf l).map Prod.fst ↔ m ∈ l.map Prod.fst := by
  suffices h : ∀ acc : List (String × β),
      m ∈ (l.foldl (fun d p => dictInsert p.1 p.2 d) acc).map Prod.fst ↔
        m ∈ acc.map Prod.fst ∨ m ∈ l.map Prod.fst by
    simpa [dictOf] using h []
  induction l with
  | nil =>
    intro acc
    simp
  | cons p rest ih =>
    intro acc
    simp only [List.foldl_cons]
    rw [ih (dictInsert p.1 p.2 acc), dictInsert_mem_keys]
    simp only [List.map_cons, List.mem_cons]
    tauto

theorem dictInsert_entry_mem {β : Type} {k : String} {v : β}
    {d : List (String × β)} {e : String × β} (h : e ∈ dictInsert k v d) :
    e = (k, v) ∨ e ∈ d := by
  induction d with
  | nil => simpa [dictInsert] using h
  | cons p rest ih =>
    obtain ⟨k', v'⟩ := p
    by_cases hk : k' = k
    · subst hk
      simp [dictInsert] at h
      rcases h with h | h
      · exact Or.inl (by simp [h])
      · exact Or.inr (List.mem_cons_of_mem _ h)
    · simp [dictInsert, hk] at h
      rcases h with h | h
      · exact Or.inr (by simp [h])
      · rcases ih h with h' | h'
        · exact Or.inl h'
        · exact Or.inr (List.mem_cons_of_mem _ h')

theorem dictOf_entry_mem_aux {β : Type} {e : String × β} :
    ∀ (l acc : List (String × β)),
      e ∈ l.foldl (fun d p => dictInsert p.1 p.2 d) acc → e ∈ acc ∨ e ∈ l := by
  intro l
  induction l with
  | nil =>
    intro acc h
    simp only [List.foldl_nil] at h
    exact Or.inl h
  | cons p rest ih =>
    intro acc h
    simp only [List.foldl_cons] at h
    rcases ih (dictInsert p.1 p.2 acc) h with h' | h'
    · rcases dictInsert_entry_mem h' with h'' | h''
      · right
        rw [h'']
        exact List.mem_cons_self _ _
      · exact Or.inl h''
    · exact Or.inr (List.mem_cons_of_mem _ h')

theorem dictOf_entry_mem {β : Type} {l : List (String × β)} {e : String × β}
    (h : e ∈ dictOf l) : e ∈ l := by
  rcases dictOf_entry_mem_aux l [] (by simpa [dictOf] using h) with h' | h'
  · exact absurd h' (List.not_mem_nil e)
  · exact h'

theorem stepsGraph_keys {story_steps : List StoryStep} {m : String} :
    m ∈ (stepsGraph story_steps).map Prod.fst ↔
      m ∈ story_steps.map StoryStep.id := by
  unfold stepsGraph
  rw [dictOf_mem_keys]
  constructor
  · intro h
    obtain ⟨p, hp, hfst⟩ := List.mem_map.mp h
    obtain ⟨s, hs, hps⟩ := List.mem_map.mp hp
    subst hps
    exact List.mem_map.mpr ⟨s, hs, hfst⟩
  · intro h
    obtain ⟨s, hs, hid⟩ := List.mem_map.mp h
    exact List.mem_map.mpr ⟨_, List.mem_map.mpr ⟨s, hs, rfl⟩, hid⟩

theorem stepsGraph_allNodes {story_steps : List StoryStep} {m : String}
    (h : m ∈ allNodesList (stepsGraph story_steps)) :
    m ∈ story_steps.map StoryStep.id := by
  unfold allNodesList at h
  rcases List.mem_append.mp h with h' | h'
  · exact stepsGraph_keys.mp h'
  · obtain ⟨p, hp, hmp⟩ := List.mem_flatMap.mp h'
    have hp' := dictOf_entry_mem hp
    obtain ⟨s, _, hps⟩ := List.mem_map.mp hp'
    subst hps
    simp only at hmp
    obtain ⟨t, ht, hid⟩ := List.mem_map.mp hmp
    have ht' : t ∈ story_steps := List.mem_of_mem_filter ht
    exact List.mem_map.mpr ⟨t, ht', hid⟩

/-! ## Lemmas about the story enumerator -/

theorem randSelect_length {α : Type} :
    ∀ (n : Nat) (r : Nat) (l : List α),
      (randSelect r n l).1.length = min n l.length := by
  intro n
  induction n with
  | zero =>
    intro r l
    simp [randSelect]
  | succ n ih =>
    intro r l
    cases l with
    | nil => simp [randSelect]
    | cons a as =>
      simp only [randSelect, List.length_cons]
      rw [ih]
      have hlt : r % (a :: as).length < (a :: as).length :=
        Nat.mod_lt _ (Nat.succ_pos as.length)
      have hlen := List.length_eraseIdx_add_one hlt
      simp only [List.length_cons] at hlen
      omega

theorem subsample_array_length {α : Type} {arr : List α} {m : Nat} (r : Nat)
    (h : m < arr.length) : (subsample_array arr m r).1.length = m := by
  unfold subsample_array
  rw [randSelect_length]
  omega

theorem frontierAt_fextend_self (k : Option String) (v : List Story)
    (f : Frontier) : frontierAt (fextend k v f) k = frontierAt f k ++ v := by
  induction f with
  | nil => simp [fextend, frontierAt, alookup]
  | cons p rest ih =>
    obtain ⟨k', v'⟩ := p
    by_cases hk : k' = k
    · subst hk
      simp [fextend, frontierAt, alookup]
    · simp only [fextend, if_neg hk]
      simp only [frontierAt, alookup, if_neg hk] at ih ⊢
      exact ih

theorem frontierAt_fextend_ne {k c : Option String} (v : List Story)
    (f : Frontier) (h : k ≠ c) :
    frontierAt (fextend k v f) c = frontierAt f c := by
  induction f with
  | nil => simp [fextend, frontierAt, alookup, h]
  | cons p rest ih =>
    obtain ⟨k', v'⟩ := p
    by_cases hk : k' = k
    · subst hk
      simp [fextend, frontierAt, alookup, h]
    · simp only [fextend, if_neg hk]
      by_cases hc : k' = c
      · subst hc
        simp [frontierAt, alookup]
      · simp only [frontierAt, alookup, if_neg hc] at ih ⊢
        exact ih

theorem frontierAt_fextend_nil (k : Option String) (f : Frontier)
    (c : Option String) : frontierAt (fextend k [] f) c = frontierAt f c := by
  by_cases hk : k = c
  · subst hk
    simp [frontierAt_fextend_self]
  · exact frontierAt_fextend_ne [] f hk

theorem alookup_fextend_isSome (k : Option String) (v : List Story)
    (f : Frontier) : (alookup (fextend k v f) k).isSome := by
  induction f with
  | nil => simp [fextend, alookup]
  | cons p rest ih =>
    obtain ⟨k', v'⟩ := p
    by_cases hk : k' = k
    · subst hk
      simp [fextend, alookup]
    · simp only [fextend, if_neg hk, alookup, if_neg hk]
      exact ih

/-- Subsampling bound inside `build_stories`: when the incoming frontier of a
step exceeds the configured maximum `m` and the step contributes events, the
step adds exactly `m` extended stories to its end checkpoint's entry. -/
theorem processStep_subsample_bound {Event : Type}
    (domain : StoryStep → List Event) (m : Nat) (step : StoryStep)
    (active : Frontier) (r : Nat) (incoming : List Story)
    (hin : alookup active step.start_checkpoint_name = some incoming)
    (hlen : m < incoming.length)
    (hev : step.explicit_events domain ≠ []) :
    (frontierAt (processStep domain (some m) (active, r) step).1
        step.end_checkpoint_name).length
      = (frontierAt active step.end_checkpoint_name).length + m := by
  rcases hE : step.explicit_events domain with _ | ⟨e, es⟩
  · exact absurd hE hev
  · simp only [processStep, hin, hE]
    rw [frontierAt_fextend_self]
    simp only [List.length_append, List.length_map]
    rw [subsample_array_length r hlen]

/-- The zero-event "small optimization" of `build_stories`: a step whose
event list is empty adds no story to any frontier entry. -/
theorem processStep_no_events {Event : Type} (domain : StoryStep → List Event)
    (maxT : Option Nat) (step : StoryStep) (active : Frontier) (r : Nat)
    (hev : step.explicit_events domain = []) (c : Option String) :
    frontierAt (processStep domain maxT (active, r) step).1 c
      = frontierAt active c := by
  rcases hin : alookup active step.start_checkpoint_name with _ | incoming
  · simp [processStep, hin]
  · simp only [processStep, hin, hev]
    exact frontierAt_fextend_nil _ _ c

/-- A processed step always creates its end checkpoint's frontier entry. -/
theorem processStep_creates_end_entry {Event : Type}
    (domain : StoryStep → List Event) (maxT : Option Nat) (step : StoryStep)
    (active : Frontier) (r : Nat)
    (h : (alookup active step.start_checkpoint_name).isSome) :
    (alookup (processStep domain maxT (active, r) step).1
        step.end_checkpoint_name).isSome := by
  rcases hin : alookup active step.start_checkpoint_name with _ | incoming
  · rw [hin] at h
    cases h
  · simp only [processStep, hin]
    exact alookup_fextend_isSome _ _ _

theorem alookup_append_single_ne {β : Type} {l : List (Nat × β)} {k a : Nat}
    {v : β} (h : a ≠ k) : alookup (l ++ [(k, v)]) a = alookup l a := by
  induction l with
  | nil => simp [alookup, Ne.symm h]
  | cons p rest ih =>
    obtain ⟨k', v'⟩ := p
    by_cases hk : k' = a
    · simp [alookup, hk]
    · simp only [List.cons_append, alookup, if_neg hk]
      exact ih

theorem hget_hupdate_ne {h : Heap} {a k : Nat} {f : StoryStep → StoryStep}
    (hne : a ≠ k) : hget (hupdate h k f) a = hget h a := by
  induction h with
  | nil => rfl
  | cons p rest ih =>
    obtain ⟨k', v'⟩ := p
    simp only [hget, hupdate, List.map_cons, alookup] at ih ⊢
    by_cases hka : k' = a
    · subst hka
      rw [if_pos rfl, if_pos rfl, if_neg hne]
    · rw [if_neg hka, if_neg hka]
      exact ih

theorem hupdate_dom {h : Heap} {k : Nat} {f : StoryStep → StoryStep}
    {a : Nat} {s : StoryStep} (hmem : (a, s) ∈ hupdate h k f) :
    ∃ s', (a, s') ∈ h := by
  unfold hupdate at hmem
  obtain ⟨⟨x, y⟩, hp, hpe⟩ := List.mem_map.mp hmem
  have hx : x = a := by
    have := congrArg Prod.fst hpe
    simpa using this
  subst hx
  exact ⟨y, hp⟩

/-- The copy loop writes only to addresses at or above the counter: every
address below the starting counter dereferences identically before and after,
provided the heap's addresses sit below the counter. -/
theorem cycleLoop_frame :
    ∀ (pairs : List (Nat × Nat)) (h : Heap) (refs : List Nat)
      (ecs : List String) (c : Nat),
      (∀ a s, (a, s) ∈ h → a < c) →
      ∀ a, a < c → hget (cycleLoop pairs h refs ecs c).1 a = hget h a := by
  intro pairs
  induction pairs with
  | nil =>
    intro h refs ecs c _ a _
    rfl
  | cons p rest ih =>
    intro h refs ecs c hdom a ha
    obtain ⟨x, y⟩ := p
    rcases hx : hget h x with _ | s
    · simpa only [cycleLoop, hx] using ih h refs ecs c hdom a ha
    · rcases hy : hget h y with _ | e
      · simpa only [cycleLoop, hx, hy] using ih h refs ecs c hdom a ha
      · simp only [cycleLoop, hx, hy]
        set cid := genCycleLabel c
        set h1 := h ++ [(c, { s with id := genStepId c })] with hh1
        set h2 := hupdate h1 c
          (fun t => { t with end_checkpoint := some cid }) with hh2
        set h3 := h2 ++ [(c + 1, { e with id := genStepId (c + 1) })] with hh3
        set h4 := hupdate h3 (c + 1)
          (fun t => { t with start_checkpoint := some cid }) with hh4
        have hdom4 : ∀ a' s', (a', s') ∈ h4 → a' < c + 2 := by
          intro a' s' hmem
          obtain ⟨s3, hmem3⟩ := hupdate_dom hmem
          rcases List.mem_append.mp hmem3 with hm | hm
          · obtain ⟨s2, hmem2⟩ := hupdate_dom hm
            rcases List.mem_append.mp hmem2 with hm' | hm'
            · exact Nat.lt_of_lt_of_le (hdom _ _ hm') (by omega)
            · simp at hm'
              omega
          · simp at hm
            omega
        have hsmall : ∀ a', a' < c → hget h4 a' = hget h a' := by
          intro a' ha'
          have h4eq : hget h4 a' = hget h3 a' :=
            hget_hupdate_ne (by omega)
          have h3eq : hget h3 a' = hget h2 a' :=
            alookup_append_single_ne (by omega)
          have h2eq : hget h2 a' = hget h1 a' :=
            hget_hupdate_ne (by omega)
          have h1eq : hget h1 a' = hget h a' :=
            alookup_append_single_ne (by omega)
          rw [h4eq, h3eq, h2eq, h1eq]
        have := ih h4 (refs ++ [c, c + 1]) (ecs ++ [cid]) (c + 2) hdom4 a
          (by omega)
        rw [this, hsmall a ha]

/-- Frame property of the cycle breaker under reference semantics: no object
at an address below the allocation counter is written; in particular every
step of the receiver is unchanged. -/
theorem with_cycles_removedHeap_frame (g : StoryGraphRef) (h : Heap)
    (ctr : Nat) (hdom : ∀ a s, (a, s) ∈ h → a < ctr) :
    ∀ a, a < ctr → hget (with_cycles_removedHeap g h ctr).2.1 a = hget h a := by
  intro a ha
  exact cycleLoop_frame _ h _ _ ctr hdom a ha

/-- Totality of `order_steps`: no duplicates, and the emitted identities are
exactly the identities of the input steps. -/
theorem order_steps_total (story_steps : List StoryStep) :
    (order_steps story_steps).1.Nodup ∧
      ∀ i, i ∈ (order_steps story_steps).1 ↔
        i ∈ story_steps.map StoryStep.id := by
  unfold order_steps
  refine ⟨topological_sort_nodup _, fun i => ⟨?_, ?_⟩⟩
  · intro h
    exact stepsGraph_allNodes (topological_sort_mem_allNodes _ h)
  · intro h
    exact topological_sort_mem_of_key _ (stepsGraph_keys.mpr h)

/-! ## The claims -/

/-- C1 (corrected), counterexample: the claim asserts that after
`with_cycles_removed` a fresh sort reports zero back edges among the
rewritten nodes, and that for a graph built from a 3-node cycle the
rewritten graph's back-edge set is empty.  Both fail: for the 3-node cycle
the rewritten graph still contains the cycle rerouted through the synthetic
checkpoint (`B→C→CYCLE_0→B`) and the fresh sort reports the back edge
`("GEN_2", "s2")`; for a 2-node cycle the reported back edge even joins the
two rewritten copies themselves. -/
theorem claim_C1_counterexample :
    cycleGraph3.cyclic_edge_ids = [("s3", "s1")] ∧
    (with_cycles_removed cycleGraph3 0).cyclic_edge_ids = [("GEN_2", "s2")] ∧
    ¬ (with_cycles_removed cycleGraph3 0).cyclic_edge_ids = [] ∧
    (with_cycles_removed cycleGraph2 0).cyclic_edge_ids
      = [("GEN_2", "GEN_1")] := by
  decide

/-- C1 (corrected), amended claim: `with_cycles_removed` removes every
back-edge source step wholesale, so the explicitly removed edge itself is
gone (its source id no longer occurs, hence the edge cannot recur), but the
rewritten graph is not acyclic in general: for the 3-node cycle the fresh
sort reports exactly one back edge again. -/
theorem claim_C1_amended :
    (with_cycles_removed cycleGraph3 0).story_steps.map StoryStep.id
      = ["s1", "s2", "GEN_1", "GEN_2"] ∧
    ¬ "s3" ∈ (with_cycles_removed cycleGraph3 0).story_steps.map StoryStep.id ∧
    succs (stepsGraph (with_cycles_removed cycleGraph3 0).story_steps) "s3"
      = [] ∧
    (with_cycles_removed cycleGraph3 0).cyclic_edge_ids
      = [("GEN_2", "s2")] := by
  decide

/-- C2 (corrected), counterexample: for a `StoryGraph` built from zero
steps, `build_stories` does not return an empty story list — the final
`active_trackers[None]` subscript finds no entry and raises `KeyError`
(embedded as `Except.error`). -/
theorem claim_C2_counterexample :
    build_stories zeroStepGraph noEventsDomain (some 2000)
      = Except.error "KeyError: None" ∧
    ¬ build_stories zeroStepGraph noEventsDomain (some 2000)
      = Except.ok [] := by
  refine ⟨rfl, fun h => ?_⟩
  rw [show build_stories zeroStepGraph noEventsDomain (some 2000)
      = Except.error "KeyError: None" from rfl] at h
  simp at h

/-- C2 (corrected), amended claim: for zero steps the ordering and the
cyclic-edge set are indeed empty, but `build_stories` fails with `KeyError`
on the final lookup instead of returning an empty list; in general
`build_stories` returns a story list `l` exactly when the frontier holds an
entry `l` at the end sentinel — an entry that exists only once some
processed step ends there. -/
theorem claim_C2_amended :
    zeroStepGraph.ordered_ids = [] ∧
    zeroStepGraph.cyclic_edge_ids = [] ∧
    build_stories zeroStepGraph noEventsDomain (some 2000)
      = Except.error "KeyError: None" ∧
    ∀ (Event : Type) (g : StoryGraph) (domain : StoryStep → List Event)
      (m : Option Nat) (l : List Story),
      build_stories g domain m = Except.ok l ↔
        alookup (finalFrontier g domain m).1 none = some l := by
  refine ⟨rfl, rfl, rfl, ?_⟩
  intro Event g domain m l
  unfold build_stories
  rcases halt : alookup (finalFrontier g domain m).1 none with _ | t
  · simp
  · simp

/-- C3 (confirmed): `order_steps` emits a duplicate-free sequence whose
members are exactly the identities of the input steps, for every finite
input including the empty one. -/
theorem claim_C3_order_steps_total (story_steps : List StoryStep) :
    (order_steps story_steps).1.Nodup ∧
      ∀ i, i ∈ (order_steps story_steps).1 ↔
        i ∈ story_steps.map StoryStep.id :=
  order_steps_total story_steps

/-- C4 (confirmed): for every adjacency dictionary, the emitted sequence has
no duplicates and every edge u→v of the graph not recorded in the returned
removed-edge set has u strictly before v in the sequence. -/
theorem claim_C4_precedence (graph : Graph) (u v : String)
    (hv : v ∈ succs graph u)
    (hret : ¬ (u, v) ∈ (topological_sort graph).2) :
    (topological_sort graph).1.Nodup ∧
      ∃ p q, (topological_sort graph).1 = p ++ u :: q ∧ v ∈ q :=
  ⟨topological_sort_nodup graph, topological_sort_precedes graph hv hret⟩

/-- Witness for C4 on the docstring example graph: edge a→b is retained and
a precedes b. -/
theorem claim_C4_witness :
    (topological_sort exampleGraph).1.Nodup ∧
      ∃ p q, (topological_sort exampleGraph).1 = p ++ "a" :: q ∧ "b" ∈ q :=
  claim_C4_precedence exampleGraph "a" "b" (by decide) (by decide)

/-- C5 (confirmed): on the 3-node cycle A→B→C→A, whichever node the
traversal starts from, exactly one back edge is reported, it lies in
{(A,B), (B,C), (C,A)}, and deleting it leaves a graph for which the emitted
sequence is a valid total order; the exported schedule starts at A and
reports (C, A). -/
theorem claim_C5_three_node_cycle :
    ((topological_sortFrom cycleABC ["A", "B", "C"]).2 = [("C", "A")] ∧
      isValidTotalOrderOn cycleABC [("C", "A")]
        (topological_sortFrom cycleABC ["A", "B", "C"]).1 = true) ∧
    ((topological_sortFrom cycleABC ["B", "C", "A"]).2 = [("A", "B")] ∧
      isValidTotalOrderOn cycleABC [("A", "B")]
        (topological_sortFrom cycleABC ["B", "C", "A"]).1 = true) ∧
    ((topological_sortFrom cycleABC ["C", "A", "B"]).2 = [("B", "C")] ∧
      isValidTotalOrderOn cycleABC [("B", "C")]
        (topological_sortFrom cycleABC ["C", "A", "B"]).1 = true) ∧
    (topological_sort cycleABC).2 = [("C", "A")] := by
  decide

/-- C6 (confirmed): `build_stories` is deterministic — two runs over equal
graphs, equal domain collaborators and equal maxima return equal story
lists (and equal final generator states); the subsampling generator is
seeded with the constant 42 inside the function, so no ambient state
enters. -/
theorem claim_C6_deterministic {Event : Type} (g1 g2 : StoryGraph)
    (d1 d2 : StoryStep → List Event) (m1 m2 : Option Nat)
    (hg : g1 = g2) (hd : d1 = d2) (hm : m1 = m2) :
    build_stories g1 d1 m1 = build_stories g2 d2 m2 ∧
      (finalFrontier g1 d1 m1).2 = (finalFrontier g2 d2 m2).2 := by
  subst hg
  subst hd
  subst hm
  exact ⟨rfl, rfl⟩

/-- Witness for C6 on the linear two-step graph. -/
theorem claim_C6_witness :
    build_stories linearGraph oneEventDomain (some 2000)
      = build_stories linearGraph oneEventDomain (some 2000) ∧
    (finalFrontier linearGraph oneEventDomain (some 2000)).2
      = (finalFrontier linearGraph oneEventDomain (some 2000)).2 :=
  claim_C6_deterministic linearGraph linearGraph oneEventDomain oneEventDomain
    (some 2000) (some 2000) rfl rfl rfl

/-- C7 (confirmed): when the incoming frontier of a step exceeds the
configured maximum `m` and the step contributes events, the step propagates
exactly `m` stories to its end checkpoint (the subsample has size exactly
`m`), and runs from the same generator state pick the same subset. -/
theorem claim_C7_subsample_bound {Event : Type}
    (domain : StoryStep → List Event) (m : Nat) (step : StoryStep)
    (active : Frontier) (r r' : Nat) (incoming : List Story)
    (hin : alookup active step.start_checkpoint_name = some incoming)
    (hlen : m < incoming.length)
    (hev : ¬ step.explicit_events domain = []) :
    (frontierAt (processStep domain (some m) (active, r) step).1
        step.end_checkpoint_name).length
      = (frontierAt active step.end_checkpoint_name).length + m ∧
    (subsample_array incoming m r).1.length = m ∧
    (r = r' → subsample_array incoming m r = subsample_array incoming m r') := by
  refine ⟨processStep_subsample_bound domain m step active r incoming hin hlen hev,
    subsample_array_length r hlen, fun hr => by rw [hr]⟩

/-- Witness for C7: three incoming stories, maximum 2, one event. -/
theorem claim_C7_witness :
    (frontierAt (processStep oneEventDomain (some 2) (threeAtA, 42)
        stepFromA).1 stepFromA.end_checkpoint_name).length
      = (frontierAt threeAtA stepFromA.end_checkpoint_name).length + 2 ∧
    (subsample_array (frontierAt threeAtA (some "A")) 2 42).1.length = 2 ∧
    (42 = 42 → subsample_array (frontierAt threeAtA (some "A")) 2 42
      = subsample_array (frontierAt threeAtA (some "A")) 2 42) :=
  claim_C7_subsample_bound oneEventDomain 2 stepFromA threeAtA 42 42
    (frontierAt threeAtA (some "A")) (by decide) (by decide) (by decide)

/-- C8 (confirmed): a step whose collaborator-derived event list is empty
adds no story to any frontier entry — every checkpoint's story list is
unchanged by processing it. -/
theorem claim_C8_zero_events {Event : Type} (domain : StoryStep → List Event)
    (maxT : Option Nat) (step : StoryStep) (active : Frontier) (r : Nat)
    (c : Option String) (hev : step.explicit_events domain = []) :
    frontierAt (processStep domain maxT (active, r) step).1 c
      = frontierAt active c :=
  processStep_no_events domain maxT step active r hev c

/-- Witness for C8: the zero-event step leaves the end sentinel's stories
unchanged. -/
theorem claim_C8_witness :
    frontierAt (processStep noEventsDomain (some 2000) (threeAtA, 42)
        stepFromA).1 none
      = frontierAt threeAtA none :=
  claim_C8_zero_events noEventsDomain (some 2000) stepFromA threeAtA 42 none
    rfl

/-- C9 (confirmed): under reference semantics, `with_cycles_removed` writes
only to freshly allocated objects, so every pre-existing address — in
particular every step of the receiver — dereferences unchanged afterwards:
the receiver is not mutated, the result is a newly constructed graph. -/
theorem claim_C9_frame (g : StoryGraphRef) (h : Heap) (ctr : Nat)
    (hdom : ∀ a s, (a, s) ∈ h → a < ctr) :
    (∀ a, a < ctr →
      hget (with_cycles_removedHeap g h ctr).2.1 a = hget h a) ∧
    ((∀ a, a ∈ g.story_steps → a < ctr) →
      g.story_steps.map (hget (with_cycles_removedHeap g h ctr).2.1)
        = g.story_steps.map (hget h)) := by
  refine ⟨with_cycles_removedHeap_frame g h ctr hdom, fun hrefs => ?_⟩
  refine List.map_eq_map_iff.mpr (fun a ha => ?_)
  exact with_cycles_removedHeap_frame g h ctr hdom a (hrefs a ha)

/-- Witness for C9 on the 3-step cycle heap. -/
theorem claim_C9_witness :
    hget (with_cycles_removedHeap wRef wHeap 3).2.1 0 = hget wHeap 0 ∧
    wRef.story_steps.map (hget (with_cycles_removedHeap wRef wHeap 3).2.1)
      = wRef.story_steps.map (hget wHeap) := by
  have hdom : ∀ a s, (a, s) ∈ wHeap → a < 3 := by
    intro a s hmem
    simp [wHeap] at hmem
    rcases hmem with ⟨h1, _⟩ | ⟨h1, _⟩ | ⟨h1, _⟩ <;> omega
  have hrefs : ∀ a, a ∈ wRef.story_steps → a < 3 := by
    intro a ha
    have hw : wRef.story_steps = [0, 1, 2] := rfl
    rw [hw] at ha
    simp at ha
    rcases ha with rfl | rfl | rfl <;> omega
  exact ⟨(claim_C9_frame wRef wHeap 3 hdom).1 0 (by omega),
    (claim_C9_frame wRef wHeap 3 hdom).2 hrefs⟩

/-- C10 (confirmed): a processed step whose start checkpoint has a frontier
entry always creates its end checkpoint's entry, even with zero events; in
particular a one-step graph whose only (event-free) step ends at the end
sentinel makes `build_stories` return an empty list rather than fail on the
final lookup. -/
theorem claim_C10_entry_created {Event : Type}
    (domain : StoryStep → List Event) (maxT : Option Nat) (step : StoryStep)
    (active : Frontier) (r : Nat)
    (h : (alookup active step.start_checkpoint_name).isSome) :
    (alookup (processStep domain maxT (active, r) step).1
        step.end_checkpoint_name).isSome ∧
    build_stories endStepGraph noEventsDomain (some 2000) = Except.ok [] :=
  ⟨processStep_creates_end_entry domain maxT step active r h, rfl⟩

/-- Witness for C10: the event-free end step processed on the initial
frontier creates the end-sentinel entry. -/
theorem claim_C10_witness :
    (alookup (processStep noEventsDomain (some 2000)
        ([(STORY_START, [⟨[]⟩])], 42) endStep).1
        endStep.end_checkpoint_name).isSome ∧
    build_stories endStepGraph noEventsDomain (some 2000) = Except.ok [] :=
  claim_C10_entry_created noEventsDomain (some 2000) endStep
    [(STORY_START, [⟨[]⟩])] 42 (by decide)
